import Mathlib

/-!
Shallow embedding of the density-fitting (DF) core of gpu4pyscf:
`gpu4pyscf/df/df.py` (factor-basis construction with eigen fallback,
memory-tier choice for the factor tensor, streaming block sizes and the
blocked `loop` generator, packed lower-triangular pair index, and the
range-separated variant cache) together with
`gpu4pyscf/lib/cupy_helper.py` (`tag_array`).

Numeric array entries are modelled over `ℚ`; machine floats are embedded
as exact rationals.  External collaborators (the cuSOLVER Cholesky
routine, `cupy.linalg.eigh`, the memory-budget query, allocation
success) are parameters of the embedded functions.
-/

namespace DFCore

/-- Constant `LINEAR_DEP_TOL = 1e-7` from `df.py` line 33. -/
def LINEAR_DEP_TOL : ℚ := 1 / 10000000

/-- Constant `MIN_BLK_SIZE` from `df.py` line 31 (config default 128). -/
def MIN_BLK_SIZE : ℕ := 128

/-- Constant `ALIGNED` from `df.py` line 32 (config default 32). -/
def ALIGNED : ℕ := 32

/-- The tag attached to the factor basis: tag `cd` on the Cholesky
path, tag `eig` on the eigendecomposition fallback path
(`df.py` lines 91 and 96). -/
inductive Tag where
  | cd : Tag
  | eig : Tag
deriving DecidableEq, Repr

/-- The factor basis `self.cd_low` produced by `DF.build`: a matrix held
as a list of columns (each column a list of `naux0` entries), plus the
tag recording which path produced it.  `naux = cd_low.shape[1]` is the
number of columns. -/
structure FactorBasis where
  cols : List (List ℚ)
  tag : Tag
deriving DecidableEq, Repr

/-- `naux = self.cd_low.shape[1]` (`df.py` line 99). -/
def FactorBasis.naux (F : FactorBasis) : ℕ := F.cols.length

/-- The eigendecomposition fallback of `DF.build` (`df.py` lines 93-96):
given the eigenvalues `w` and eigenvectors `v` (as the list of columns)
returned by `cupy.linalg.eigh(j2c)`, keep the pairs with
`w > LINEAR_DEP_TOL` and scale each kept eigenvector columnwise by
`1 / sqrt(eigenvalue)`; the square root of the external numeric library
is passed in as `sqrt`. -/
def eig_fallback (sqrt : ℚ → ℚ) (w : List ℚ) (v : List (List ℚ)) :
    FactorBasis :=
  let kept := (w.zip v).filter (fun p => LINEAR_DEP_TOL < p.1)
  ⟨kept.map (fun p => p.2.map (fun x => x / sqrt p.1)), Tag.eig⟩

/-- The `try/except` factor step of `DF.build` (`df.py` lines 89-96):
`chol` is the outcome of the external Cholesky routine on the metric
matrix (`some L` when it returns the lower-triangular factor as a list
of columns, `none` when it raises); on failure the eigen fallback runs
on the eigendecomposition `(w, v)` of the same matrix. -/
def build_cd_low (sqrt : ℚ → ℚ) (chol : Option (List (List ℚ)))
    (w : List ℚ) (v : List (List ℚ)) : FactorBasis :=
  match chol with
  | some L => ⟨L, Tag.cd⟩
  | none => eig_fallback sqrt w v

/-- The storage tier of the factor tensor chosen by `cholesky_eri_gpu`:
a device-resident `cupy` array, or a pinned host buffer. -/
inductive CderiTier where
  | gpu : CderiTier
  | pinnedHost : CderiTier
deriving DecidableEq, Repr

/-- The tier decision of `cholesky_eri_gpu` (`df.py` lines 202-219).
`avail_mem` is the result of the external `get_avail_mem()` query;
`gpuAllocOk` models whether `cupy.empty([naux, npair])` succeeds and
`pinnedAllocOk` whether `cupy.cuda.alloc_pinned_memory` succeeds.  The
guard `naux * npair * 8 < 0.4 * avail_mem` is the exact rational
comparison `10 * (naux * npair * 8) < 4 * avail_mem`. -/
def cholesky_eri_alloc (naux npair avail_mem : ℕ)
    (gpuAllocOk pinnedAllocOk : Bool) : Except String CderiTier :=
  let use_gpu_memory :=
    if 10 * (naux * npair * 8) < 4 * avail_mem then gpuAllocOk else false
  if use_gpu_memory then
    Except.ok CderiTier.gpu
  else if pinnedAllocOk then
    Except.ok CderiTier.pinnedHost
  else
    Except.error "Out of CPU memory"

/-- The build pipeline as far as the claims need it: the factor step of
`DF.build` (lines 89-99) followed by the tier decision of
`cholesky_eri_gpu` (lines 202-219), which receives
`naux = cd_low.shape[1]`. -/
def DF_build (sqrt : ℚ → ℚ) (chol : Option (List (List ℚ)))
    (w : List ℚ) (v : List (List ℚ)) (npair avail_mem : ℕ)
    (gpuAllocOk pinnedAllocOk : Bool) :
    Except String (FactorBasis × CderiTier) :=
  match cholesky_eri_alloc (build_cd_low sqrt chol w v).naux npair avail_mem
      gpuAllocOk pinnedAllocOk with
  | Except.ok tier => Except.ok (build_cd_low sqrt chol w v, tier)
  | Except.error e => Except.error e

/-- `DF.get_blksize` (`df.py` lines 123-135): `mem_avail` is the result
of the external `get_avail_mem()` query.  The float expression
`int(mem_avail*0.2/8/(nao*nao + extra) / ALIGNED) * ALIGNED` is the
exact floor `mem_avail / (40 * (nao*nao + extra) * ALIGNED) * ALIGNED`;
the result is then capped by `min(blksize, MIN_BLK_SIZE)` and the
function raises when the capped value falls below `ALIGNED`. -/
def get_blksize (mem_avail nao extra : ℕ) : Except String ℕ :=
  let blksize := mem_avail / (40 * (nao * nao + extra) * ALIGNED) * ALIGNED
  let blksize := min blksize MIN_BLK_SIZE
  if blksize < ALIGNED then Except.error "Not enough GPU memory"
  else Except.ok blksize

/-- The Python `range(start, stop, step)` sequence for a positive step,
as used by `pyscf.lib.prange`: the values `start + k * step` that are
below `stop`. -/
def pyRange (start stop step : ℕ) : List ℕ :=
  (List.range ((stop - start + step - 1) / step)).map (fun k => start + k * step)

/-- `pyscf.lib.prange(start, stop, step)`, driving the loop of `DF.loop`
(`df.py` line 154): yields the pairs `(i, min(i + step, stop))` for `i`
in `range(start, stop, step)`. -/
def prange (start stop step : ℕ) : List (ℕ × ℕ) :=
  (pyRange start stop step).map (fun i => (i, min (i + step) stop))

/-- The auxiliary-index block ranges that one full run of `DF.loop`
yields (`df.py` lines 154-173): one `(p0, p1)` range per iteration of
`for p0, p1 in lib.prange(0, naux, blksize)`. -/
def DF_loop_blocks (naux blksize : ℕ) : List (ℕ × ℕ) :=
  prange 0 naux blksize

/-- The cached lower-triangle pair index of `DF.build` (`df.py` lines
62-67): `cupy.tril_indices(nao)` enumerates, in row-major order, the
positions `(i, j)` with `j ≤ i < nao`; `tril_row` is the list of first
components and `tril_col` the list of second components. -/
def trilPairs (n : ℕ) : List (ℕ × ℕ) :=
  (List.range n).flatMap (fun i => (List.range (i + 1)).map (fun j => (i, j)))

/-- `self.diag_idx` from `DF.build` (`df.py` lines 69-70): the packed
positions `i*(i+1)//2 + i` for `i = 0 .. nao-1`. -/
def diag_idx (n : ℕ) : List ℕ :=
  (List.range n).map (fun i => i * (i + 1) / 2 + i)

/-- Packing a dense matrix through the pair index: the vector
`v[k] = M[row[k], col[k]]`, as read off by the assembly and consumed by
`DF.loop` (the packed rows of `cderi`). -/
def packTril (n : ℕ) (M : ℕ → ℕ → ℚ) : List ℚ :=
  (trilPairs n).map (fun p => M p.1 p.2)

/-- One vectorized scatter-assignment `buf2[rows, cols] = v`
(`df.py` line 169): each packed entry is written at position
`(row[k], col[k])` of the buffer. -/
def scatterRC (B : ℕ → ℕ → ℚ) (pvs : List ((ℕ × ℕ) × ℚ)) : ℕ → ℕ → ℚ :=
  pvs.foldl (fun B pv => fun a b =>
    if (a, b) = pv.1 then pv.2 else B a b) B

/-- One vectorized scatter-assignment `buf2[cols, rows] = v`
(`df.py` line 170): each packed entry is written at the transposed
position `(col[k], row[k])` of the buffer. -/
def scatterCR (B : ℕ → ℕ → ℚ) (pvs : List ((ℕ × ℕ) × ℚ)) : ℕ → ℕ → ℚ :=
  pvs.foldl (fun B pv => fun a b =>
    if (a, b) = (pv.1.2, pv.1.1) then pv.2 else B a b) B

/-- The unpack step of `DF.loop` (`df.py` lines 168-170) for one packed
row: start from a zero `nao × nao` buffer, write the packed values at
`(rows, cols)`, then write the same values at `(cols, rows)`. -/
def unpackTril (n : ℕ) (v : List ℚ) : ℕ → ℕ → ℚ :=
  scatterCR (scatterRC (fun _ _ => 0) ((trilPairs n).zip v)) ((trilPairs n).zip v)

/-- The `%.6f` quantization of `omega` used as the `_rsh_df` cache key
(`df.py` line 114): the nearest integer to `omega * 10^6`. -/
def quantKey (omega : ℚ) : ℤ := round (omega * 1000000)

/-- The `_rsh_df` cache state of a `DF` object: the association list
from quantized keys to the identity of the cached RSH-DF instance, plus
a counter supplying the identity of the next freshly built instance. -/
structure RshCache where
  entries : List (ℤ × ℕ)
  nextId : ℕ
deriving DecidableEq, Repr

/-- The caching branch of `DF.get_jk` for `omega ≠ None`
(`df.py` lines 114-119): quantize `omega`, return the cached instance
when the key is present, otherwise build a fresh instance
(`copy.copy(self).reset()`), cache it under the key and return it.  The
result is the instance served, the updated cache and whether a build
happened. -/
def get_jk_rsh (st : RshCache) (omega : ℚ) : ℕ × RshCache × Bool :=
  match st.entries.lookup (quantKey omega) with
  | some i => (i, st, false)
  | none =>
    (st.nextId, ⟨(quantKey omega, st.nextId) :: st.entries, st.nextId + 1⟩, true)

/-- A `cupy` array with attached attributes (`CPArrayWithTag`,
`cupy_helper.py` lines 93-94): the element data plus the attribute
dictionary `__dict__`, modelled as a partial map from attribute names to
values.  A plain untagged array is the case `attrs = fun _ => none`. -/
structure CPArrayWithTag (α V : Type) where
  data : α
  attrs : String → Option V

/-- One `d[k] = v` store into an attribute dictionary. -/
def dictSet {V : Type} (d : String → Option V) (k : String) (v : V) :
    String → Option V :=
  fun q => if q = k then some v else d q

/-- `d.update(kvs)` over an association list of keyword arguments,
processed left to right. -/
def dictUpdate {V : Type} (d : String → Option V) (kvs : List (String × V)) :
    String → Option V :=
  kvs.foldl (fun d kv => dictSet d kv.1 kv.2) d

/-- `tag_array(a, **kwargs)` (`cupy_helper.py` lines 96-102): view the
array (same element data, fresh empty `__dict__`), copy over the whole
attribute dictionary of `a` when `a` is already tagged, then apply the
keyword arguments on top. -/
def tag_array {α V : Type} (a : CPArrayWithTag α V) (kwargs : List (String × V)) :
    CPArrayWithTag α V :=
  let t : CPArrayWithTag α V := ⟨a.data, fun _ => none⟩
  let t : CPArrayWithTag α V := ⟨t.data, fun q =>
    match a.attrs q with
    | some v => some v
    | none => t.attrs q⟩
  ⟨t.data, dictUpdate t.attrs kwargs⟩

/-! ## Helper lemmas -/

/-- Filtering the zip of the eigenvalue list with the eigenvector
columns by a predicate on the eigenvalue keeps as many entries as
filtering the eigenvalue list alone, provided there are at least as many
columns as eigenvalues. -/
theorem filter_zip_fst_length (w : List ℚ) (v : List (List ℚ))
    (h : w.length ≤ v.length) :
    ((w.zip v).filter (fun p => LINEAR_DEP_TOL < p.1)).length =
      (w.filter (fun x => LINEAR_DEP_TOL < x)).length := by
  induction w generalizing v with
  | nil => simp
  | cons x w ih =>
    cases v with
    | nil => simp at h
    | cons c v =>
      simp only [List.zip_cons_cons, List.filter_cons]
      by_cases hx : LINEAR_DEP_TOL < x <;>
        simp [hx, ih v (by simpa using h)]

/-- Unfolding `dictUpdate` on a cons cell. -/
theorem dictUpdate_cons {V : Type} (d : String → Option V)
    (kv : String × V) (kvs : List (String × V)) :
    dictUpdate d (kv :: kvs) = dictUpdate (dictSet d kv.1 kv.2) kvs := rfl

/-- A key that is not among the updated keys keeps its old value. -/
theorem dictUpdate_not_mem {V : Type} (d : String → Option V)
    (kvs : List (String × V)) (q : String) (hq : q ∉ kvs.map Prod.fst) :
    dictUpdate d kvs q = d q := by
  induction kvs generalizing d with
  | nil => rfl
  | cons kv kvs ih =>
    simp only [List.map_cons, List.mem_cons] at hq
    push_neg at hq
    rw [dictUpdate_cons, ih _ hq.2]
    simp [dictSet, hq.1]

/-- A key among the updated keys takes the updated value, when the
updated keys are distinct. -/
theorem dictUpdate_mem {V : Type} (d : String → Option V)
    (kvs : List (String × V)) (q : String) (v : V)
    (hnd : (kvs.map Prod.fst).Nodup) (hmem : (q, v) ∈ kvs) :
    dictUpdate d kvs q = some v := by
  induction kvs generalizing d with
  | nil => simp at hmem
  | cons kv kvs ih =>
    simp only [List.map_cons, List.nodup_cons] at hnd
    rcases List.mem_cons.mp hmem with h | h
    · subst h
      rw [dictUpdate_cons, dictUpdate_not_mem _ _ _ hnd.1]
      simp [dictSet]
    · exact ih _ hnd.2 h

/-! ## Claim theorems -/

/-- C1: for a metric matrix on which the Cholesky factorization raises
(`chol = none`), `DF.build` falls back to the symmetric
eigendecomposition, keeps exactly the eigenpairs whose eigenvalue
exceeds `LINEAR_DEP_TOL = 1e-7`, forms the basis as the kept eigenvector
columns scaled by `1/sqrt(eigenvalue)`, tags it `eig`, and sets `naux`
to the number of retained eigenvalues; on either path `naux ≤ naux0`
(the metric size, i.e. the number of eigenvalues), and `naux < naux0` is
possible only on the eigen path. -/
theorem build_eig_fallback_spec (sqrt : ℚ → ℚ) (chol : Option (List (List ℚ)))
    (w : List ℚ) (v : List (List ℚ))
    (hv : v.length = w.length)
    (hchol : ∀ L, chol = some L → L.length = w.length) :
    (chol = none →
      (build_cd_low sqrt chol w v).tag = Tag.eig ∧
      (build_cd_low sqrt chol w v).cols =
        ((w.zip v).filter (fun p => LINEAR_DEP_TOL < p.1)).map
          (fun p => p.2.map (fun x => x / sqrt p.1)) ∧
      (build_cd_low sqrt chol w v).naux =
        (w.filter (fun x => LINEAR_DEP_TOL < x)).length) ∧
    (build_cd_low sqrt chol w v).naux ≤ w.length ∧
    ((build_cd_low sqrt chol w v).naux < w.length →
      (build_cd_low sqrt chol w v).tag = Tag.eig) := by
  cases chol with
  | some L =>
    have hL := hchol L rfl
    refine ⟨(fun h => nomatch h), ?_, ?_⟩
    · simp [build_cd_low, FactorBasis.naux, hL]
    · intro hlt
      exact absurd hlt (by simp [build_cd_low, FactorBasis.naux, hL])
  | none =>
    have hlen : (build_cd_low sqrt none w v).naux =
        (w.filter (fun x => LINEAR_DEP_TOL < x)).length := by
      simpa [build_cd_low, eig_fallback, FactorBasis.naux] using
        filter_zip_fst_length w v (le_of_eq hv.symm)
    refine ⟨fun _ => ⟨rfl, rfl, hlen⟩, ?_, fun _ => rfl⟩
    rw [hlen]
    exact List.length_filter_le _ _

/-- Witness for C1 at `sqrt = id`, `chol = none`, eigenvalues `[1]`,
eigenvectors `[[1]]`. -/
theorem build_eig_fallback_spec_witness :
    (([[(1 : ℚ)]] : List (List ℚ)).length = ([1] : List ℚ).length) ∧
    (((none : Option (List (List ℚ))) = none →
        (build_cd_low id none [1] [[1]]).tag = Tag.eig ∧
        (build_cd_low id none [1] [[1]]).cols =
          ((([1] : List ℚ).zip ([[1]] : List (List ℚ))).filter
              (fun p => LINEAR_DEP_TOL < p.1)).map
            (fun p => p.2.map (fun x => x / id p.1)) ∧
        (build_cd_low id none [1] [[1]]).naux =
          (([1] : List ℚ).filter (fun x => LINEAR_DEP_TOL < x)).length) ∧
      (build_cd_low id none [1] [[1]]).naux ≤ ([1] : List ℚ).length ∧
      ((build_cd_low id none [1] [[1]]).naux < ([1] : List ℚ).length →
        (build_cd_low id none [1] [[1]]).tag = Tag.eig)) := by
  exact ⟨rfl, build_eig_fallback_spec id none [1] [[1]] rfl (fun _ h => nomatch h)⟩

/-- C2: in `cholesky_eri_gpu` the factor tensor lands on the GPU exactly
when `naux * npair * 8` bytes is under `0.4` of the queried available
memory and the GPU allocation succeeds; otherwise it is a pinned host
buffer, and if the pinned allocation itself raises the build fails with
the fatal error `Out of CPU memory`.  The decision is a single
computation made before assembly (the embedded function is evaluated
once and its result is final). -/
theorem cholesky_eri_alloc_spec (naux npair avail_mem : ℕ) (g p : Bool) :
    (cholesky_eri_alloc naux npair avail_mem g p = Except.ok CderiTier.gpu ↔
      10 * (naux * npair * 8) < 4 * avail_mem ∧ g = true) ∧
    (cholesky_eri_alloc naux npair avail_mem g p = Except.ok CderiTier.pinnedHost ↔
      ¬(10 * (naux * npair * 8) < 4 * avail_mem ∧ g = true) ∧ p = true) ∧
    (cholesky_eri_alloc naux npair avail_mem g p = Except.error "Out of CPU memory" ↔
      ¬(10 * (naux * npair * 8) < 4 * avail_mem ∧ g = true) ∧ p = false) := by
  unfold cholesky_eri_alloc
  by_cases hc : 10 * (naux * npair * 8) < 4 * avail_mem <;>
    cases g <;> cases p <;> simp [hc]

/-- C6: `DF.get_blksize` computes
`floor(mem * 0.2 / 8 / (nao*nao + extra) / ALIGNED) * ALIGNED` (the
first conjunct identifies the embedded natural-number formula with that
exact rational floor), caps the result at `MIN_BLK_SIZE`, raises the
fatal error `Not enough GPU memory` exactly when the resulting block
size falls below `ALIGNED` (equivalently, exactly when
`mem < 40 * (nao*nao + extra) * ALIGNED`), and otherwise returns the
capped value; there is no degraded single-row mode. -/
theorem get_blksize_spec (m nao extra : ℕ) (h : 0 < nao * nao + extra) :
    (⌊(m : ℚ) * (2 / 10) / 8 / ((nao : ℚ) * (nao : ℚ) + (extra : ℚ)) /
        (ALIGNED : ℚ)⌋₊ = m / (40 * (nao * nao + extra) * ALIGNED)) ∧
    (get_blksize m nao extra = Except.error "Not enough GPU memory" ↔
      min (m / (40 * (nao * nao + extra) * ALIGNED) * ALIGNED) MIN_BLK_SIZE <
        ALIGNED) ∧
    (get_blksize m nao extra = Except.error "Not enough GPU memory" ↔
      m < 40 * (nao * nao + extra) * ALIGNED) ∧
    (40 * (nao * nao + extra) * ALIGNED ≤ m →
      get_blksize m nao extra = Except.ok
        (min (m / (40 * (nao * nao + extra) * ALIGNED) * ALIGNED)
          MIN_BLK_SIZE)) := by
  have hD : (0 : ℚ) < (nao : ℚ) * (nao : ℚ) + (extra : ℚ) := by
    have := h
    push_cast [← Nat.cast_mul, ← Nat.cast_add]
    exact_mod_cast h
  have hfloor : ⌊(m : ℚ) * (2 / 10) / 8 / ((nao : ℚ) * (nao : ℚ) + (extra : ℚ)) /
      (ALIGNED : ℚ)⌋₊ = m / (40 * (nao * nao + extra) * ALIGNED) := by
    have e1 : (m : ℚ) * (2 / 10) / 8 / ((nao : ℚ) * (nao : ℚ) + (extra : ℚ)) /
        (ALIGNED : ℚ) =
        (m : ℚ) / ((40 * (nao * nao + extra) * ALIGNED : ℕ) : ℚ) := by
      simp only [ALIGNED]
      push_cast
      field_simp
      ring
    rw [e1, Nat.floor_div_nat, Nat.floor_natCast]
  have hKpos : 0 < 40 * (nao * nao + extra) * ALIGNED := by
    simp only [ALIGNED]
    positivity
  have heq : get_blksize m nao extra =
      if min (m / (40 * (nao * nao + extra) * ALIGNED) * ALIGNED)
            MIN_BLK_SIZE < ALIGNED
      then Except.error "Not enough GPU memory"
      else Except.ok (min (m / (40 * (nao * nao + extra) * ALIGNED) * ALIGNED)
            MIN_BLK_SIZE) := rfl
  have hcrit : ∀ q : ℕ, min (q * ALIGNED) MIN_BLK_SIZE < ALIGNED ↔ q = 0 := by
    intro q
    cases q with
    | zero => simp [ALIGNED, MIN_BLK_SIZE]
    | succ k =>
      simp only [ALIGNED, MIN_BLK_SIZE, Nat.succ_mul]
      constructor
      · intro hk
        have := min_le_left (k * 32 + 32) 128
        have := min_le_right (k * 32 + 32) 128
        rcases min_cases (k * 32 + 32) 128 with ⟨he, _⟩ | ⟨he, _⟩ <;> omega
      · intro hk
        exact absurd hk (Nat.succ_ne_zero k)
  have hq0 : m / (40 * (nao * nao + extra) * ALIGNED) = 0 ↔
      m < 40 * (nao * nao + extra) * ALIGNED := Nat.div_eq_zero_iff hKpos
  refine ⟨hfloor, ?_, ?_, ?_⟩
  · rw [heq]
    by_cases hlt : min (m / (40 * (nao * nao + extra) * ALIGNED) * ALIGNED)
        MIN_BLK_SIZE < ALIGNED
    · simp [hlt]
    · simp [hlt]
  · rw [heq]
    by_cases hlt : min (m / (40 * (nao * nao + extra) * ALIGNED) * ALIGNED)
        MIN_BLK_SIZE < ALIGNED
    · rw [if_pos hlt]
      simp only [true_iff]
      exact hq0.mp ((hcrit _).mp hlt)
    · rw [if_neg hlt]
      simp only [reduceCtorEq, false_iff, not_lt]
      by_contra hnot
      push_neg at hnot
      exact hlt ((hcrit _).mpr (hq0.mpr hnot))
  · intro hm
    rw [heq, if_neg]
    rw [hcrit]
    intro hz
    rw [hq0] at hz
    omega

/-- Witness for C6 at `m = 10^9`, `nao = 10`, `extra = 0`. -/
theorem get_blksize_spec_witness :
    (0 < 10 * 10 + 0) ∧
    ((⌊(1000000000 : ℚ) * (2 / 10) / 8 / ((10 : ℚ) * (10 : ℚ) + (0 : ℚ)) /
        (ALIGNED : ℚ)⌋₊ = 1000000000 / (40 * (10 * 10 + 0) * ALIGNED)) ∧
    (get_blksize 1000000000 10 0 = Except.error "Not enough GPU memory" ↔
      min (1000000000 / (40 * (10 * 10 + 0) * ALIGNED) * ALIGNED) MIN_BLK_SIZE <
        ALIGNED) ∧
    (get_blksize 1000000000 10 0 = Except.error "Not enough GPU memory" ↔
      1000000000 < 40 * (10 * 10 + 0) * ALIGNED) ∧
    (40 * (10 * 10 + 0) * ALIGNED ≤ 1000000000 →
      get_blksize 1000000000 10 0 = Except.ok
        (min (1000000000 / (40 * (10 * 10 + 0) * ALIGNED) * ALIGNED)
          MIN_BLK_SIZE))) := by
  exact ⟨by norm_num, get_blksize_spec 1000000000 10 0 (by norm_num)⟩

/-- C9: whenever `DF.get_blksize` returns without raising, the returned
block size is a positive multiple of `ALIGNED = 32` and never exceeds
`MIN_BLK_SIZE = 128`, regardless of the reported available memory. -/
theorem get_blksize_ok_bounds (m nao extra b : ℕ)
    (hok : get_blksize m nao extra = Except.ok b) :
    0 < b ∧ ALIGNED ∣ b ∧ b ≤ MIN_BLK_SIZE ∧ ALIGNED = 32 ∧
      MIN_BLK_SIZE = 128 := by
  unfold get_blksize at hok
  set q := m / (40 * (nao * nao + extra) * ALIGNED) with hq
  by_cases hlt : min (q * ALIGNED) MIN_BLK_SIZE < ALIGNED
  · rw [if_pos hlt] at hok
    exact absurd hok (by simp)
  · rw [if_neg hlt] at hok
    have hb : b = min (q * ALIGNED) MIN_BLK_SIZE := by
      cases hok
      rfl
    subst hb
    refine ⟨?_, ?_, min_le_right _ _, rfl, rfl⟩
    · have : ALIGNED ≤ min (q * ALIGNED) MIN_BLK_SIZE := not_lt.mp hlt
      have hA : 0 < ALIGNED := by simp [ALIGNED]
      omega
    · rcases min_cases (q * ALIGNED) MIN_BLK_SIZE with ⟨he, _⟩ | ⟨he, _⟩
      · rw [he]
        exact dvd_mul_left ALIGNED q
      · rw [he]
        exact ⟨4, rfl⟩

/-- Witness for C9 at `m = 10^9`, `nao = 10`, `extra = 0`, `b = 128`. -/
theorem get_blksize_ok_bounds_witness :
    get_blksize 1000000000 10 0 = Except.ok 128 ∧
    (0 < 128 ∧ ALIGNED ∣ 128 ∧ 128 ≤ MIN_BLK_SIZE ∧ ALIGNED = 32 ∧
      MIN_BLK_SIZE = 128) := by
  exact ⟨rfl, get_blksize_ok_bounds 1000000000 10 0 128 rfl⟩

/-- With every eigenvalue at or below the threshold, the eigen fallback
keeps nothing: the factor basis is empty and the build completes with
the empty factor tensor on the GPU tier. -/
theorem DF_build_all_below_tol (sqrt : ℚ → ℚ)
    (w : List ℚ) (v : List (List ℚ)) (npair avail_mem : ℕ) (pinnedOk : Bool)
    (hw : ∀ x ∈ w, x ≤ LINEAR_DEP_TOL) (hm : 0 < avail_mem) :
    build_cd_low sqrt none w v = ⟨[], Tag.eig⟩ ∧
    DF_build sqrt none w v npair avail_mem true pinnedOk =
      Except.ok (⟨[], Tag.eig⟩, CderiTier.gpu) := by
  have hfil : (w.zip v).filter (fun p => LINEAR_DEP_TOL < p.1) = [] := by
    rw [List.filter_eq_nil_iff]
    rintro ⟨x, c⟩ hp
    have hx : x ∈ w := (List.of_mem_zip hp).1
    simp only [decide_eq_true_eq, not_lt]
    exact hw x hx
  have h1 : build_cd_low sqrt none w v = ⟨[], Tag.eig⟩ := by
    simp [build_cd_low, eig_fallback, hfil]
  refine ⟨h1, ?_⟩
  have halloc : cholesky_eri_alloc (FactorBasis.naux ⟨[], Tag.eig⟩) npair
      avail_mem true pinnedOk = Except.ok CderiTier.gpu := by
    unfold cholesky_eri_alloc
    have hc : 10 * (FactorBasis.naux ⟨[], Tag.eig⟩ * npair * 8) < 4 * avail_mem := by
      simp only [FactorBasis.naux, List.length_nil, Nat.zero_mul, Nat.mul_zero]
      omega
    simp [hc]
  unfold DF_build
  rw [h1, halloc]

/-- C7 counterexample: with the Cholesky path failing and the single
eigenvalue `1e-9` below the `1e-7` threshold, `DF.build` does not fail:
the factor step completes with an empty basis and the build returns
successfully (here with the factor tensor on the GPU tier), refuting the
claim that the build fails with an error in this case. -/
theorem build_no_surviving_eigenvalue_counterexample :
    DF_build id none [1 / 1000000000] [[1]] 1 1000000 true true =
      Except.ok (⟨[], Tag.eig⟩, CderiTier.gpu) ∧
    ¬ ∃ e, DF_build id none [1 / 1000000000] [[1]] 1 1000000 true true =
      Except.error e := by
  have hw : ∀ x ∈ ([1 / 1000000000] : List ℚ), x ≤ LINEAR_DEP_TOL := by
    intro x hx
    rw [List.mem_singleton] at hx
    rw [hx]
    norm_num [LINEAR_DEP_TOL]
  have h := (DF_build_all_below_tol id [1 / 1000000000] [[1]] 1 1000000 true hw
    (by norm_num)).2
  refine ⟨h, ?_⟩
  rintro ⟨e, he⟩
  rw [h] at he
  exact Except.noConfusion he

/-- C7 amended: if the Cholesky path fails and no eigenvalue exceeds the
`1e-7` threshold, `DF.build` does not raise: the eigen fallback produces
an empty factor basis (`naux = 0`, tag `eig`) and the build completes
normally (with any positive reported memory the empty factor tensor is
GPU-resident and the build returns it). -/
theorem build_no_surviving_eigenvalue_spec (sqrt : ℚ → ℚ)
    (w : List ℚ) (v : List (List ℚ)) (npair avail_mem : ℕ) (pinnedOk : Bool)
    (hw : ∀ x ∈ w, x ≤ LINEAR_DEP_TOL) (hm : 0 < avail_mem) :
    build_cd_low sqrt none w v = ⟨[], Tag.eig⟩ ∧
    DF_build sqrt none w v npair avail_mem true pinnedOk =
      Except.ok (⟨[], Tag.eig⟩, CderiTier.gpu) :=
  DF_build_all_below_tol sqrt w v npair avail_mem pinnedOk hw hm

/-- Witness for the amended C7 at `sqrt = id`, one eigenvalue `1e-8`,
`npair = 2`, `avail_mem = 8`. -/
theorem build_no_surviving_eigenvalue_spec_witness :
    (∀ x ∈ ([1 / 100000000] : List ℚ), x ≤ LINEAR_DEP_TOL) ∧ (0 < 8) ∧
    (build_cd_low id none [1 / 100000000] [[1]] = ⟨[], Tag.eig⟩ ∧
      DF_build id none [1 / 100000000] [[1]] 2 8 true false =
        Except.ok (⟨[], Tag.eig⟩, CderiTier.gpu)) := by
  have hw : ∀ x ∈ ([1 / 100000000] : List ℚ), x ≤ LINEAR_DEP_TOL := by
    intro x hx
    rw [List.mem_singleton] at hx
    rw [hx]
    norm_num [LINEAR_DEP_TOL]
  exact ⟨hw, by norm_num,
    build_no_surviving_eigenvalue_spec id [1 / 100000000] [[1]] 2 8 false hw
      (by norm_num)⟩

/-- C8: `DF.get_jk` quantizes `omega` to a 6-decimal key and builds at
most one RSH-DF instance per distinct quantized key: a call whose key is
cached returns the cached instance unchanged, a call whose key is absent
builds and caches a fresh instance, and a second call whose `omega`
quantizes to the same key returns the identical instance of the first
call with no second build and no state change. -/
theorem get_jk_rsh_cache_spec (st : RshCache) (omega omega2 : ℚ)
    (h1 : 0 < omega) (h2 : 0 < omega2)
    (hkey : quantKey omega = quantKey omega2) :
    (∀ i, st.entries.lookup (quantKey omega) = some i →
      get_jk_rsh st omega = (i, st, false)) ∧
    (st.entries.lookup (quantKey omega) = none →
      get_jk_rsh st omega =
        (st.nextId, ⟨(quantKey omega, st.nextId) :: st.entries,
          st.nextId + 1⟩, true)) ∧
    get_jk_rsh (get_jk_rsh st omega).2.1 omega2 =
      ((get_jk_rsh st omega).1, (get_jk_rsh st omega).2.1, false) := by
  refine ⟨?_, ?_, ?_⟩
  · intro i hi
    unfold get_jk_rsh
    rw [hi]
  · intro hnone
    unfold get_jk_rsh
    rw [hnone]
  · cases hl : st.entries.lookup (quantKey omega) with
    | some i =>
      have e1 : get_jk_rsh st omega = (i, st, false) := by
        unfold get_jk_rsh
        rw [hl]
      rw [e1]
      unfold get_jk_rsh
      rw [← hkey, hl]
    | none =>
      have e1 : get_jk_rsh st omega =
          (st.nextId, ⟨(quantKey omega, st.nextId) :: st.entries,
            st.nextId + 1⟩, true) := by
        unfold get_jk_rsh
        rw [hl]
      rw [e1]
      unfold get_jk_rsh
      rw [← hkey]
      simp [List.lookup]

/-- Witness for C8 at the empty cache with `omega = 0.3` and
`omega2 = 0.3 + 1e-8`, which share the quantized key `300000`. -/
theorem get_jk_rsh_cache_spec_witness :
    ((0 : ℚ) < 3 / 10) ∧ ((0 : ℚ) < 3 / 10 + 1 / 100000000) ∧
    quantKey (3 / 10) = quantKey (3 / 10 + 1 / 100000000) ∧
    ((∀ i, (⟨[], 0⟩ : RshCache).entries.lookup (quantKey (3 / 10)) = some i →
      get_jk_rsh ⟨[], 0⟩ (3 / 10) = (i, ⟨[], 0⟩, false)) ∧
    ((⟨[], 0⟩ : RshCache).entries.lookup (quantKey (3 / 10)) = none →
      get_jk_rsh ⟨[], 0⟩ (3 / 10) =
        ((0 : ℕ), ⟨[(quantKey (3 / 10), 0)], 0 + 1⟩, true)) ∧
    get_jk_rsh (get_jk_rsh ⟨[], 0⟩ (3 / 10)).2.1 (3 / 10 + 1 / 100000000) =
      ((get_jk_rsh ⟨[], 0⟩ (3 / 10)).1,
        (get_jk_rsh ⟨[], 0⟩ (3 / 10)).2.1, false)) := by
  have hkey : quantKey (3 / 10) = quantKey (3 / 10 + 1 / 100000000) := by
    norm_num [quantKey, round_eq]
  refine ⟨by norm_num, by norm_num, hkey, ?_⟩
  exact get_jk_rsh_cache_spec ⟨[], 0⟩ (3 / 10) (3 / 10 + 1 / 100000000)
    (by norm_num) (by norm_num) hkey

/-- C10: `tag_array` returns a view with the same element data; when the
input is already tagged, every previously attached attribute is
preserved unless the same name appears among the keyword arguments, in
which case the new value wins; no other attribute changes. -/
theorem tag_array_spec (α V : Type) (a : CPArrayWithTag α V)
    (kwargs : List (String × V)) (hnd : (kwargs.map Prod.fst).Nodup) :
    (tag_array a kwargs).data = a.data ∧
    (∀ q v, (q, v) ∈ kwargs → (tag_array a kwargs).attrs q = some v) ∧
    (∀ q, q ∉ kwargs.map Prod.fst → (tag_array a kwargs).attrs q = a.attrs q) := by
  refine ⟨rfl, ?_, ?_⟩
  · intro q v hm
    exact dictUpdate_mem _ _ _ _ hnd hm
  · intro q hq
    show dictUpdate _ kwargs q = a.attrs q
    rw [dictUpdate_not_mem _ _ _ hq]
    show (match a.attrs q with
      | some v => some v
      | none => (none : Option V)) = a.attrs q
    cases a.attrs q <;> rfl

/-- Witness for C10: a tagged array with attribute `tag = 1`, retagged
with `tag = 2` and a fresh attribute `omega = 3`. -/
theorem tag_array_spec_witness :
    (((([("tag", 1), ("omega", 3)] : List (String × ℕ))).map Prod.fst).Nodup) ∧
    ((tag_array ⟨(7 : ℕ), fun q => if q = "tag" then some 1 else none⟩
        [("tag", 1), ("omega", 3)]).data = 7 ∧
    (∀ q v, (q, v) ∈ ([("tag", 1), ("omega", 3)] : List (String × ℕ)) →
      (tag_array (⟨(7 : ℕ), fun q => if q = "tag" then some 1 else none⟩ :
          CPArrayWithTag ℕ ℕ) [("tag", 1), ("omega", 3)]).attrs q = some v) ∧
    (∀ q, q ∉ ([("tag", 1), ("omega", 3)] : List (String × ℕ)).map Prod.fst →
      (tag_array (⟨(7 : ℕ), fun q => if q = "tag" then some 1 else none⟩ :
          CPArrayWithTag ℕ ℕ) [("tag", 1), ("omega", 3)]).attrs q =
        (if q = "tag" then some 1 else none))) := by
  exact ⟨by decide,
    tag_array_spec ℕ ℕ ⟨7, fun q => if q = "tag" then some 1 else none⟩
      [("tag", 1), ("omega", 3)] (by decide)⟩

/-- Peeling off the last row of the lower-triangle enumeration. -/
theorem trilPairs_succ (n : ℕ) :
    trilPairs (n + 1) = trilPairs n ++ (List.range (n + 1)).map (fun j => (n, j)) := by
  unfold trilPairs
  rw [List.range_succ, List.flatMap_append]
  simp [List.range_succ]

/-- The triangle numbers `i*(i+1)/2` satisfy the step identity. -/
theorem tri_succ (i : ℕ) : (i + 1) * (i + 2) / 2 = i * (i + 1) / 2 + (i + 1) := by
  have h : (i + 1) * (i + 2) = i * (i + 1) + (i + 1) * 2 := by ring
  rw [h, Nat.add_mul_div_right _ _ (by norm_num : (0 : ℕ) < 2)]

/-- The lower-triangle enumeration has `n*(n+1)/2` entries. -/
theorem trilPairs_length (n : ℕ) : (trilPairs n).length = n * (n + 1) / 2 := by
  induction n with
  | zero => rfl
  | succ n ih =>
    rw [trilPairs_succ, List.length_append, ih, List.length_map, List.length_range]
    show n * (n + 1) / 2 + (n + 1) = (n + 1) * (n + 2) / 2
    exact (tri_succ n).symm

/-- Membership in the lower-triangle enumeration. -/
theorem trilPairs_mem (n : ℕ) (p : ℕ × ℕ) :
    p ∈ trilPairs n ↔ p.2 ≤ p.1 ∧ p.1 < n := by
  unfold trilPairs
  simp only [List.mem_flatMap, List.mem_map, List.mem_range]
  constructor
  · rintro ⟨i, hi, j, hj, hp⟩
    rw [← hp]
    exact ⟨Nat.lt_succ_iff.mp hj, hi⟩
  · rintro ⟨h1, h2⟩
    exact ⟨p.1, h2, p.2, Nat.lt_succ_iff.mpr h1, rfl⟩

/-- The lower-triangle enumeration has no duplicates. -/
theorem trilPairs_nodup (n : ℕ) : (trilPairs n).Nodup := by
  induction n with
  | zero => exact List.nodup_nil
  | succ n ih =>
    rw [trilPairs_succ]
    refine List.Nodup.append ih ?_ ?_
    · refine List.Nodup.map ?_ (List.nodup_range _)
      intro x y hxy
      exact (Prod.mk.injEq _ _ _ _ ▸ hxy).2
    · intro p hp hp2
      have h1 := (trilPairs_mem n p).mp hp
      obtain ⟨j, _, hj⟩ := List.mem_map.mp hp2
      rw [← hj] at h1
      exact absurd h1.2 (lt_irrefl n)

/-- An element of a duplicate-free list is counted exactly once. -/
theorem count_eq_one_of_nodup {x : ℕ × ℕ} {l : List (ℕ × ℕ)}
    (hnd : l.Nodup) (hx : x ∈ l) : l.count x = 1 := by
  induction l with
  | nil => simp at hx
  | cons y l ih =>
    rw [List.nodup_cons] at hnd
    rw [List.count_cons]
    rcases List.mem_cons.mp hx with h | h
    · subst h
      have hz : l.count x = 0 := by
        rw [List.count_eq_zero]
        exact hnd.1
      simp [hz]
    · have hxy : x ≠ y := by
        rintro rfl
        exact hnd.1 h
      rw [ih hnd.2 h]
      simp [hxy, Ne.symm hxy]

/-- A triangle-number index bound: the packed index of `(i, j)` with
`j ≤ i < n` lies inside the first `n*(n+1)/2` positions. -/
theorem tri_lt_tri (i j n : ℕ) (hj : j ≤ i) (hi : i < n) :
    i * (i + 1) / 2 + j < n * (n + 1) / 2 := by
  have h1 : (i + 1) * (i + 2) / 2 ≤ n * (n + 1) / 2 :=
    Nat.div_le_div_right (Nat.mul_le_mul hi (by omega))
  have h2 := tri_succ i
  omega

/-- The entry of the lower-triangle enumeration at the packed index
`i*(i+1)/2 + j` is the pair `(i, j)`, for `j ≤ i < n`. -/
theorem trilPairs_getElem (n i j : ℕ) (hj : j ≤ i) (hi : i < n) :
    (trilPairs n)[i * (i + 1) / 2 + j]? = some (i, j) := by
  induction n with
  | zero => omega
  | succ n ih =>
    rw [trilPairs_succ, List.getElem?_append]
    rcases Nat.lt_or_ge i n with h | h
    · rw [if_pos]
      · exact ih h
      · rw [trilPairs_length]
        exact tri_lt_tri i j n hj h
    · have hin : i = n := by omega
      subst hin
      rw [if_neg]
      · rw [trilPairs_length, Nat.add_sub_cancel_left, List.getElem?_map,
          List.getElem?_range (by omega : j < i + 1)]
        rfl
      · rw [trilPairs_length]
        omega

/-- A diagonal entry `(a, a)` can only sit at packed index
`a*(a+1)/2 + a`. -/
theorem trilPairs_diag_pos (n k a : ℕ)
    (h : (trilPairs n)[k]? = some (a, a)) : k = a * (a + 1) / 2 + a := by
  have hmem : (a, a) ∈ trilPairs n := List.getElem?_mem h
  have ha : a < n := ((trilPairs_mem n (a, a)).mp hmem).2
  have h2 := trilPairs_getElem n a a (le_refl a) ha
  have hk : k < (trilPairs n).length := by
    by_contra hc
    push_neg at hc
    rw [List.getElem?_eq_none hc] at h
    exact Option.noConfusion h
  exact List.getElem?_inj hk (trilPairs_nodup n) (h.trans h2.symm)

/-- C5: for every orbital count `n ≥ 1`, the cached pair index of
`DF.build` enumerates exactly `n*(n+1)/2` pairs; the pairs are exactly
those `(i, j)` with `j ≤ i < n`, each exactly once; `row[k] ≥ col[k]`
holds at every position; the diagonal entries `(i, i)` sit exactly at
the packed indices `i*(i+1)/2 + i` (the `diag_idx` values); and `n = 4`
gives 10 pairs, 4 of them diagonal. -/
theorem trilPairs_spec (n : ℕ) (hn : 1 ≤ n) :
    (trilPairs n).length = n * (n + 1) / 2 ∧
    (∀ p : ℕ × ℕ, p ∈ trilPairs n ↔ p.2 ≤ p.1 ∧ p.1 < n) ∧
    (∀ i j, j ≤ i → i < n → (trilPairs n).count (i, j) = 1) ∧
    (∀ (k a b : ℕ), (trilPairs n)[k]? = some (a, b) → b ≤ a) ∧
    (∀ i, i < n → (trilPairs n)[i * (i + 1) / 2 + i]? = some (i, i)) ∧
    (∀ (k a : ℕ), (trilPairs n)[k]? = some (a, a) → k = a * (a + 1) / 2 + a) ∧
    (trilPairs 4).length = 10 ∧
    ((trilPairs 4).filter (fun p => p.1 = p.2)).length = 4 ∧
    diag_idx 4 = [0, 2, 5, 9] := by
  refine ⟨trilPairs_length n, trilPairs_mem n, ?_, ?_, ?_,
    fun k a h => trilPairs_diag_pos n k a h, by decide, by decide, by decide⟩
  · intro i j hj hi
    refine count_eq_one_of_nodup (trilPairs_nodup n) ?_
    exact (trilPairs_mem n (i, j)).mpr ⟨hj, hi⟩
  · intro k a b h
    have hmem : (a, b) ∈ trilPairs n := List.getElem?_mem h
    exact ((trilPairs_mem n (a, b)).mp hmem).1
  · intro i hi
    exact trilPairs_getElem n i i (le_refl i) hi

/-- Witness for C5 at `n = 4`. -/
theorem trilPairs_spec_witness :
    (1 ≤ 4) ∧
    ((trilPairs 4).length = 4 * (4 + 1) / 2 ∧
    (∀ p : ℕ × ℕ, p ∈ trilPairs 4 ↔ p.2 ≤ p.1 ∧ p.1 < 4) ∧
    (∀ i j, j ≤ i → i < 4 → (trilPairs 4).count (i, j) = 1) ∧
    (∀ (k a b : ℕ), (trilPairs 4)[k]? = some (a, b) → b ≤ a) ∧
    (∀ i, i < 4 → (trilPairs 4)[i * (i + 1) / 2 + i]? = some (i, i)) ∧
    (∀ (k a : ℕ), (trilPairs 4)[k]? = some (a, a) → k = a * (a + 1) / 2 + a) ∧
    (trilPairs 4).length = 10 ∧
    ((trilPairs 4).filter (fun p => p.1 = p.2)).length = 4 ∧
    diag_idx 4 = [0, 2, 5, 9]) := by
  exact ⟨by norm_num, trilPairs_spec 4 (by norm_num)⟩

/-- Zipping a list with its own image under a map pairs each element
with its image. -/
theorem zip_self_map {α β : Type} (l : List α) (g : α → β) :
    l.zip (l.map g) = l.map (fun a => (a, g a)) := by
  induction l with
  | nil => rfl
  | cons x l ih => simp [ih]

/-- Effect of the `(rows, cols)` scatter pass when every packed value is
the matrix entry at its own position: a position holds the matrix value
when its pair was written, and the prior buffer value otherwise. -/
theorem scatterRC_map (M : ℕ → ℕ → ℚ) (B : ℕ → ℕ → ℚ)
    (ps : List (ℕ × ℕ)) (a b : ℕ) :
    scatterRC B (ps.map (fun p => (p, M p.1 p.2))) a b =
      if (a, b) ∈ ps then M a b else B a b := by
  induction ps generalizing B with
  | nil => simp [scatterRC]
  | cons p ps ih =>
    rw [List.map_cons]
    rw [show scatterRC B ((p, M p.1 p.2) :: ps.map (fun p => (p, M p.1 p.2))) =
      scatterRC (fun x y => if (x, y) = p then M p.1 p.2 else B x y)
        (ps.map (fun p => (p, M p.1 p.2))) from rfl]
    rw [ih]
    by_cases hmem : (a, b) ∈ ps
    · rw [if_pos hmem, if_pos (List.mem_cons_of_mem _ hmem)]
    · rw [if_neg hmem]
      by_cases hp : (a, b) = p
      · subst hp
        simp
      · have hnc : (a, b) ∉ p :: ps := by
          intro hc
          rcases List.mem_cons.mp hc with h | h
          exacts [hp h, hmem h]
        rw [if_neg hp, if_neg hnc]

/-- Effect of the `(cols, rows)` scatter pass: a position `(a, b)` holds
the matrix value at the transposed position when the pair `(b, a)` was
written, and the prior buffer value otherwise. -/
theorem scatterCR_map (M : ℕ → ℕ → ℚ) (B : ℕ → ℕ → ℚ)
    (ps : List (ℕ × ℕ)) (a b : ℕ) :
    scatterCR B (ps.map (fun p => (p, M p.1 p.2))) a b =
      if (b, a) ∈ ps then M b a else B a b := by
  induction ps generalizing B with
  | nil => simp [scatterCR]
  | cons p ps ih =>
    rw [List.map_cons]
    rw [show scatterCR B ((p, M p.1 p.2) :: ps.map (fun p => (p, M p.1 p.2))) =
      scatterCR (fun x y => if (x, y) = (p.2, p.1) then M p.1 p.2 else B x y)
        (ps.map (fun p => (p, M p.1 p.2))) from rfl]
    rw [ih]
    by_cases hmem : (b, a) ∈ ps
    · rw [if_pos hmem, if_pos (List.mem_cons_of_mem _ hmem)]
    · rw [if_neg hmem]
      by_cases hp : (b, a) = p
      · subst hp
        simp
      · have hnc : (b, a) ∉ p :: ps := by
          intro hc
          rcases List.mem_cons.mp hc with h | h
          exacts [hp h, hmem h]
        have hp2 : (a, b) ≠ (p.2, p.1) := by
          intro hc
          apply hp
          rw [Prod.mk.injEq] at hc ⊢
          exact ⟨hc.2, hc.1⟩
        rw [if_neg hp2, if_neg hnc]

/-- C4: gathering a dense symmetric matrix at the pair-index positions
and scatter-unpacking the packed vector into a zero buffer (writes to
both `(row, col)` and `(col, row)`, as in `DF.loop`) reproduces the
matrix exactly at every in-range position: off-diagonal entries are
restored from their single packed representative, and diagonal entries
are written twice with the same value, so they are not doubled. -/
theorem pack_unpack_spec (n : ℕ) (M : ℕ → ℕ → ℚ)
    (hsym : ∀ a b, a < n → b < n → M a b = M b a)
    (a b : ℕ) (ha : a < n) (hb : b < n) :
    unpackTril n (packTril n M) a b = M a b := by
  unfold unpackTril packTril
  rw [zip_self_map, scatterCR_map]
  by_cases hba : (b, a) ∈ trilPairs n
  · rw [if_pos hba]
    exact hsym b a hb ha
  · rw [if_neg hba, scatterRC_map]
    have hab : (a, b) ∈ trilPairs n := by
      rw [trilPairs_mem]
      refine ⟨?_, ha⟩
      have hnot : ¬(a ≤ b ∧ b < n) := by
        intro hc
        exact hba ((trilPairs_mem n (b, a)).mpr hc)
      omega
    rw [if_pos hab]

/-- Witness for C4 at `n = 3`, `M a b = a + b`, position `(1, 2)`. -/
theorem pack_unpack_spec_witness :
    (∀ a b : ℕ, a < 3 → b < 3 →
      ((a + b : ℕ) : ℚ) = ((b + a : ℕ) : ℚ)) ∧ (1 < 3) ∧ (2 < 3) ∧
    unpackTril 3 (packTril 3 (fun a b => ((a + b : ℕ) : ℚ))) 1 2 =
      ((1 + 2 : ℕ) : ℚ) := by
  have hsym : ∀ a b : ℕ, a < 3 → b < 3 →
      ((a + b : ℕ) : ℚ) = ((b + a : ℕ) : ℚ) := by
    intro a b _ _
    rw [Nat.add_comm]
  exact ⟨hsym, by norm_num, by norm_num,
    pack_unpack_spec 3 (fun a b => ((a + b : ℕ) : ℚ)) hsym 1 2
      (by norm_num) (by norm_num)⟩

/-- Closed form of the block list: block `k` spans
`[k*blksize, min(k*blksize + blksize, naux))`, for
`k < ceil(naux / blksize)`. -/
theorem DF_loop_blocks_eq (naux blksize : ℕ) :
    DF_loop_blocks naux blksize =
      (List.range ((naux + blksize - 1) / blksize)).map
        (fun k => (k * blksize, min (k * blksize + blksize) naux)) := by
  unfold DF_loop_blocks prange pyRange
  rw [List.map_map]
  simp [Function.comp_def]

/-- Block count is positive when the range and the step are. -/
theorem blocks_count_pos (naux blksize : ℕ) (h1 : 1 ≤ naux) (h2 : 1 ≤ blksize) :
    0 < (naux + blksize - 1) / blksize := by
  have := (Nat.le_div_iff_mul_le h2).mpr
    (by omega : 1 * blksize ≤ naux + blksize - 1)
  omega

/-- The left endpoint of every block is inside the range. -/
theorem block_start_lt (k naux blksize : ℕ) (h2 : 1 ≤ blksize)
    (hk : k < (naux + blksize - 1) / blksize) : k * blksize < naux := by
  have h3 : (k + 1) * blksize ≤ naux + blksize - 1 :=
    (Nat.le_div_iff_mul_le h2).mp hk
  have h4 : (k + 1) * blksize = k * blksize + blksize := by ring
  omega

/-- Every block except the last ends inside the range. -/
theorem block_end_le (k naux blksize : ℕ) (h2 : 1 ≤ blksize)
    (hk : k + 1 < (naux + blksize - 1) / blksize) :
    k * blksize + blksize ≤ naux := by
  have h3 : (k + 2) * blksize ≤ naux + blksize - 1 :=
    (Nat.le_div_iff_mul_le h2).mp hk
  have h4 : (k + 2) * blksize = k * blksize + blksize + blksize := by ring
  omega

/-- The blocks together reach at least `naux`. -/
theorem blocks_cover (naux blksize : ℕ) (h2 : 1 ≤ blksize) :
    naux ≤ (naux + blksize - 1) / blksize * blksize := by
  have hdm := Nat.div_add_mod (naux + blksize - 1) blksize
  have hlt : (naux + blksize - 1) % blksize < blksize := Nat.mod_lt _ h2
  have hc : blksize * ((naux + blksize - 1) / blksize) =
      (naux + blksize - 1) / blksize * blksize := Nat.mul_comm _ _
  omega

/-- The entry of the block list at a valid index. -/
theorem blocks_getElem_of_lt (naux blksize k : ℕ)
    (hk : k < (naux + blksize - 1) / blksize) :
    (DF_loop_blocks naux blksize)[k]? =
      some (k * blksize, min (k * blksize + blksize) naux) := by
  rw [DF_loop_blocks_eq, List.getElem?_map, List.getElem?_range hk]
  rfl

/-- Inversion: a defined entry of the block list is at a valid index and
has the closed form. -/
theorem blocks_getElem_inv (naux blksize k : ℕ) (p : ℕ × ℕ)
    (h : (DF_loop_blocks naux blksize)[k]? = some p) :
    k < (naux + blksize - 1) / blksize ∧
      p = (k * blksize, min (k * blksize + blksize) naux) := by
  rw [DF_loop_blocks_eq, List.getElem?_map] at h
  rcases Nat.lt_or_ge k ((naux + blksize - 1) / blksize) with hk | hk
  · rw [List.getElem?_range hk] at h
    have h2 : some (k * blksize, min (k * blksize + blksize) naux) = some p := h
    exact ⟨hk, ((Option.some.injEq _ _).mp h2).symm⟩
  · rw [List.getElem?_eq_none (by simpa using hk)] at h
    simp at h

/-- The block list has one entry per block index. -/
theorem blocks_length (naux blksize : ℕ) :
    (DF_loop_blocks naux blksize).length = (naux + blksize - 1) / blksize := by
  rw [DF_loop_blocks_eq, List.length_map, List.length_range]

/-- C3: for `naux ≥ 1` and `blksize ≥ 1`, one run of `DF.loop` yields a
nonempty list of blocks: the first starts at 0, the last ends at `naux`,
consecutive blocks are adjacent (no gap, no overlap, increasing), every
block is nonempty and at most `blksize` long, every block except the
last is exactly `blksize` long, every index below `naux` is covered by
some block, and `naux = 37` with `blksize = 10` yields the block sizes
`[10, 10, 10, 7]`. -/
theorem DF_loop_blocks_spec (naux blksize : ℕ) (h1 : 1 ≤ naux) (h2 : 1 ≤ blksize) :
    DF_loop_blocks naux blksize ≠ [] ∧
    (DF_loop_blocks naux blksize)[0]? = some (0, min blksize naux) ∧
    (∀ p : ℕ × ℕ,
      (DF_loop_blocks naux blksize)[(DF_loop_blocks naux blksize).length - 1]? =
        some p → p.2 = naux) ∧
    (∀ (k : ℕ) (p q : ℕ × ℕ), (DF_loop_blocks naux blksize)[k]? = some p →
      (DF_loop_blocks naux blksize)[k + 1]? = some q →
      p.2 = q.1 ∧ p.1 < q.1) ∧
    (∀ (k : ℕ) (p : ℕ × ℕ), (DF_loop_blocks naux blksize)[k]? = some p →
      p.1 < p.2 ∧ p.2 - p.1 ≤ blksize ∧
      (k + 1 < (DF_loop_blocks naux blksize).length → p.2 - p.1 = blksize)) ∧
    (∀ x, x < naux → ∃ p ∈ DF_loop_blocks naux blksize, p.1 ≤ x ∧ x < p.2) ∧
    (DF_loop_blocks 37 10).map (fun p => p.2 - p.1) = [10, 10, 10, 7] := by
  have hcnt := blocks_count_pos naux blksize h1 h2
  refine ⟨?_, ?_, ?_, ?_, ?_, ?_, by decide⟩
  · intro hnil
    have := blocks_length naux blksize
    rw [hnil] at this
    simp at this
    omega
  · rw [blocks_getElem_of_lt naux blksize 0 hcnt]
    simp
  · intro p hp
    rw [blocks_length] at hp
    obtain ⟨hk, hpe⟩ := blocks_getElem_inv naux blksize _ p hp
    subst hpe
    show min (((naux + blksize - 1) / blksize - 1) * blksize + blksize) naux = naux
    have he : ((naux + blksize - 1) / blksize - 1) * blksize + blksize =
        (naux + blksize - 1) / blksize * blksize := by
      have h3 : (naux + blksize - 1) / blksize - 1 + 1 =
          (naux + blksize - 1) / blksize := Nat.succ_pred_eq_of_pos hcnt
      calc ((naux + blksize - 1) / blksize - 1) * blksize + blksize
          = ((naux + blksize - 1) / blksize - 1 + 1) * blksize := by ring
        _ = (naux + blksize - 1) / blksize * blksize := by rw [h3]
    rw [he]
    exact min_eq_right (blocks_cover naux blksize h2)
  · intro k p q hp hq
    obtain ⟨hk, hpe⟩ := blocks_getElem_inv naux blksize k p hp
    obtain ⟨hk1, hqe⟩ := blocks_getElem_inv naux blksize (k + 1) q hq
    subst hpe
    subst hqe
    have hend := block_end_le k naux blksize h2 hk1
    have he : (k + 1) * blksize = k * blksize + blksize := by ring
    constructor
    · show min (k * blksize + blksize) naux = (k + 1) * blksize
      rw [he]
      exact min_eq_left hend
    · show k * blksize < (k + 1) * blksize
      omega
  · intro k p hp
    obtain ⟨hk, hpe⟩ := blocks_getElem_inv naux blksize k p hp
    subst hpe
    have hstart := block_start_lt k naux blksize h2 hk
    refine ⟨?_, ?_, ?_⟩
    · show k * blksize < min (k * blksize + blksize) naux
      exact lt_min (by omega) hstart
    · show min (k * blksize + blksize) naux - k * blksize ≤ blksize
      rcases min_cases (k * blksize + blksize) naux with ⟨he, _⟩ | ⟨he, _⟩ <;>
        omega
    · intro hklen
      rw [blocks_length] at hklen
      have hend := block_end_le k naux blksize h2 hklen
      show min (k * blksize + blksize) naux - k * blksize = blksize
      rw [min_eq_left hend]
      omega
  · intro x hx
    have hkx : x / blksize < (naux + blksize - 1) / blksize := by
      have e1 : naux + blksize - 1 = (naux - 1) + blksize := by omega
      rw [e1, Nat.add_div_right _ h2]
      have e2 : x / blksize ≤ (naux - 1) / blksize :=
        Nat.div_le_div_right (by omega)
      omega
    refine ⟨(x / blksize * blksize, min (x / blksize * blksize + blksize) naux),
      ?_, ?_, ?_⟩
    · exact List.getElem?_mem (blocks_getElem_of_lt naux blksize _ hkx)
    · exact Nat.div_mul_le_self x blksize
    · have hdm := Nat.div_add_mod x blksize
      have hmod : x % blksize < blksize := Nat.mod_lt _ h2
      have hc : blksize * (x / blksize) = x / blksize * blksize :=
        Nat.mul_comm _ _
      exact lt_min (by omega) hx

/-- Witness for C3 at `naux = 37`, `blksize = 10`. -/
theorem DF_loop_blocks_spec_witness :
    (1 ≤ 37) ∧ (1 ≤ 10) ∧
    (DF_loop_blocks 37 10 ≠ [] ∧
    (DF_loop_blocks 37 10)[0]? = some (0, min 10 37) ∧
    (∀ p : ℕ × ℕ,
      (DF_loop_blocks 37 10)[(DF_loop_blocks 37 10).length - 1]? =
        some p → p.2 = 37) ∧
    (∀ (k : ℕ) (p q : ℕ × ℕ), (DF_loop_blocks 37 10)[k]? = some p →
      (DF_loop_blocks 37 10)[k + 1]? = some q →
      p.2 = q.1 ∧ p.1 < q.1) ∧
    (∀ (k : ℕ) (p : ℕ × ℕ), (DF_loop_blocks 37 10)[k]? = some p →
      p.1 < p.2 ∧ p.2 - p.1 ≤ 10 ∧
      (k + 1 < (DF_loop_blocks 37 10).length → p.2 - p.1 = 10)) ∧
    (∀ x, x < 37 → ∃ p ∈ DF_loop_blocks 37 10, p.1 ≤ x ∧ x < p.2) ∧
    (DF_loop_blocks 37 10).map (fun p => p.2 - p.1) = [10, 10, 10, 7]) := by
  exact ⟨by norm_num, by norm_num,
    DF_loop_blocks_spec 37 10 (by norm_num) (by norm_num)⟩

end DFCore
